import Mathlib

/-!
Shallow embedding of `src/rs/src/lang.rs` (module `lang` of the `inc`
compiler): the alpha-renaming pass `rename`/`mangle` and the lambda-lifting
pass `lift`/`lift1`, together with the AST and compiler-state data model they
operate on.
-/

namespace Inc

/-- The AST node model.  Modelled from the spec: the `Expr` enum lives in
`crate::core`, which is not under `src/`; its variants are reconstructed from
the spec's §3 data model and the uses in `lang.rs` (`Identifier`, `Let`,
`List`, `Cond`, `Lambda`, `Str`, `Symbol`, `Number`, `Boolean`, and the
empty-list literal `Nil`).  `Lambda`'s `Code` payload (`name`, `formals`,
`free`, `body`) is inlined as four constructor fields. -/
inductive Expr where
  | Number (n : Int)
  | Boolean (b : Bool)
  | Str (s : String)
  | Symbol (s : String)
  | Nil
  | Identifier (i : String)
  | List (l : List Expr)
  | Cond (pred : Expr) (thn : Expr) (alt : Option Expr)
  | Let (bindings : List (String × Expr)) (body : List Expr)
  | Lambda (name : Option String) (formals : List String) (free : List String)
      (body : List Expr)
  deriving Repr

/-- A function-definition record.  Modelled from the spec: `Code` in
`crate::core` — an optional name, formal-parameter names, free-variable
names, and body expressions. -/
structure Code where
  name : Option String
  formals : List String
  free : List String
  body : List Expr
  deriving Repr

/-- Scope environment of the renaming pass: `HashMap<String, i64>` in the
source, modelled extensionally as a partial map from names to generation
counters. -/
def Env : Type := String → Option Int

/-- The empty environment (`HashMap::new()`). -/
def Env.empty : Env := fun _ => none

/-- `env.entry(n).and_modify(|e| *e += 1).or_insert(0)`: bump `n`'s
generation (absent → 0, present → +1). -/
def bump (env : Env) (n : String) : Env :=
  fun x =>
    if x = n then
      match env n with
      | some k => some (k + 1)
      | none => some 0
    else env x

/-- Bump every name of a list in listed order (the `for` loops building
`all` and `rest` in `mangle`'s `Let` arm). -/
def bumpAll (env : Env) (names : List String) : Env :=
  names.foldl bump env

/-- The discriminator of `mangle`'s inner `match value`: `Let { .. }` and
`Lambda(_)` arms versus the `_` arm. -/
def isLetOrLambda : Expr → Bool
  | .Let _ _ => true
  | .Lambda _ _ _ _ => true
  | _ => false

/-- `let index = all.get(name).unwrap()` of `mangle`'s `Let` arm.  The
`none` branch models the `unwrap` panic with a default of `0`; theorem `C6`
proves it unreachable in every call `mangle` makes. -/
def genOf (all : Env) (name : String) : Int :=
  match all name with
  | some n => n
  | none => 0

mutual

/-- `fn mangle(env, prog)` of `lang.rs`: rename a single expression with
letrec support.  The `all.get(name).unwrap()` of the source is modelled by
`genOf`, whose `none` branch (the panic) is proved unreachable. -/
def mangle (env : Env) : Expr → Expr
  | .Identifier i =>
    match env i with
    | some n => .Identifier (i ++ "." ++ toString n)
    | none => .Identifier i
  | .Let bindings body =>
    let all := bumpAll env (bindings.map Prod.fst)
    .Let (mangleBindings env all (bindings.map Prod.fst) bindings)
      (mangleList all body)
  | .List l => .List (mangleList env l)
  | .Cond p t a => .Cond (mangle env p) (mangle env t) (mangleOpt env a)
  | .Lambda name formals free body =>
    .Lambda name formals free (mangleList env body)
  | .Number n => .Number n
  | .Boolean b => .Boolean b
  | .Str s => .Str s
  | .Symbol s => .Symbol s
  | .Nil => .Nil

/-- The `bindings.iter().map(|(name, value)| …)` closure of `mangle`'s `Let`
arm, processing each binding against the incoming environment `env`, the
extended environment `all`, and the full list `names` of binding names of
this `let`. -/
def mangleBindings (env all : Env) (names : List String) :
    List (String × Expr) → List (String × Expr)
  | [] => []
  | (name, value) :: bs =>
    let rest := bumpAll env (names.filter (fun n => n ≠ name))
    let value' := if isLetOrLambda value then mangle all value else mangle rest value
    (name ++ "." ++ toString (genOf all name), value') ::
      mangleBindings env all names bs

/-- Mangle each expression of a list (`.iter().map(|b| mangle(…, b))`). -/
def mangleList (env : Env) : List Expr → List Expr
  | [] => []
  | e :: es => mangle env e :: mangleList env es

/-- Mangle an optional expression (`alt.as_ref().map(…)`). -/
def mangleOpt (env : Env) : Option Expr → Option Expr
  | none => none
  | some e => some (mangle env e)

end

/-- `pub fn rename(prog)`: mangle every top-level expression in the empty
environment. -/
def rename (prog : List Expr) : List Expr :=
  mangleList Env.empty prog

/-- Compiler state.  Modelled from the spec: `compiler::state::State` is not
under `src/`; `lang.rs` uses its fields `functions : HashMap<String, Code>`,
`strings : HashMap<String, usize>` and `symbols : HashMap<String, usize>`.
The two literal pools are modelled as the list of keys in first-insertion
order — faithful because `lang.rs` only ever inserts an absent key with
value `pool.len()`, so the stored index of a key is exactly its position in
insertion order.  The function table is modelled as an association list
whose `insert` overwrites in place (`HashMap::insert` semantics). -/
structure State where
  functions : List (String × Code)
  strings : List String
  symbols : List String
  deriving Repr

/-- The all-empty initial state (`Default::default()`). -/
def State.empty : State := ⟨[], [], []⟩

/-- `HashMap::insert` on the function table: overwrite the key's record if
present, otherwise append. -/
def fnInsert (l : List (String × Code)) (k : String) (v : Code) :
    List (String × Code) :=
  if l.any (fun p => p.1 = k) then
    l.map (fun p => if p.1 = k then (k, v) else p)
  else l ++ [(k, v)]

/-- `HashMap::get` on the function table. -/
def fnLookup (l : List (String × Code)) (k : String) : Option Code :=
  (l.find? (fun p => p.1 = k)).map Prod.snd

/-- The literal-pool interning step of `lift1`:
`if !pool.contains_key(r) { pool.insert(r, pool.len()) }`. -/
def internPool (pool : List String) (v : String) : List String :=
  if v ∈ pool then pool else pool ++ [v]

mutual

/-- `fn lift1(s, prog)` of `lang.rs`.  The `unimplemented!("inline λ")`
panic on a function literal outside binding position is modelled as `none`;
every non-panicking path returns `some (state, expr)` with the state
threaded in the source's evaluation order. -/
def lift1 (s : State) : Expr → Option (State × Expr)
  | .Str r => some ({ s with strings := internPool s.strings r }, .Str r)
  | .Symbol r => some ({ s with symbols := internPool s.symbols r }, .Symbol r)
  | .Let bindings body => do
    let (s1, rest) ← liftBindings s bindings
    let (s2, body') ← liftList s1 body
    some (s2, .Let rest body')
  | .List l => do
    let (s1, l') ← liftList s l
    some (s1, .List l')
  | .Cond p t a => do
    let (s1, p') ← lift1 s p
    let (s2, t') ← lift1 s1 t
    match a with
    | none => some (s2, .Cond p' t' none)
    | some e => do
      let (s3, e') ← lift1 s2 e
      some (s3, .Cond p' t' (some e'))
  | .Lambda _ _ _ _ => none
  | .Number n => some (s, .Number n)
  | .Boolean b => some (s, .Boolean b)
  | .Nil => some (s, .Nil)
  | .Identifier i => some (s, .Identifier i)

/-- The `for (name, expr) in bindings` loop of `lift1`'s `Let` arm: a
lambda-valued binding is extracted into the function table (its body lifted
first, against the same state), any other binding is kept with its value
lifted, in original relative order. -/
def liftBindings (s : State) :
    List (String × Expr) → Option (State × List (String × Expr))
  | [] => some (s, [])
  | (name, .Lambda _ formals free body) :: bs => do
    let (s1, body') ← liftList s body
    liftBindings
      { s1 with
        functions := fnInsert s1.functions name ⟨some name, formals, free, body'⟩ }
      bs
  | (name, v) :: bs => do
    let (s1, v') ← lift1 s v
    let (s2, rest) ← liftBindings s1 bs
    some (s2, (name, v') :: rest)

/-- `pub fn lift(s, prog)` / the list maps inside `lift1`: lift each
expression in order against one threaded state. -/
def liftList (s : State) : List Expr → Option (State × List Expr)
  | [] => some (s, [])
  | e :: es => do
    let (s1, e') ← lift1 s e
    let (s2, es') ← liftList s1 es
    some (s2, e' :: es')

end

/-- `pub fn lift(s, prog)`: the top-level entry point. -/
def lift (s : State) (prog : List Expr) : Option (State × List Expr) :=
  liftList s prog

/-- Discriminator of `lift1`'s binding loop: the `Lambda(Code { .. })` arm
versus the `_` arm. -/
def isLambda : Expr → Bool
  | .Lambda _ _ _ _ => true
  | _ => false

/-- The binding list of a `Let` expression (and `[]` on any other form);
used to state facts about the bindings `mangle` produces. -/
def bindingsOf : Expr → List (String × Expr)
  | .Let bs _ => bs
  | _ => []

mutual

/-- Whether a function-literal (`Lambda`) node occurs anywhere in an
expression. -/
def hasLambda : Expr → Bool
  | .Lambda _ _ _ _ => true
  | .List l => hasLambdaList l
  | .Cond p t a => hasLambda p || hasLambda t || hasLambdaOpt a
  | .Let bs b => hasLambdaBindings bs || hasLambdaList b
  | _ => false

/-- `hasLambda` over a list of expressions. -/
def hasLambdaList : List Expr → Bool
  | [] => false
  | e :: es => hasLambda e || hasLambdaList es

/-- `hasLambda` over an optional expression. -/
def hasLambdaOpt : Option Expr → Bool
  | none => false
  | some e => hasLambda e

/-- `hasLambda` over the values of a binding list. -/
def hasLambdaBindings : List (String × Expr) → Bool
  | [] => false
  | (_, v) :: bs => hasLambda v || hasLambdaBindings bs

end

/-- Every record of a function table has a lambda-free body. -/
def FnTableClean (l : List (String × Code)) : Prop :=
  ∀ k c, fnLookup l k = some c → hasLambdaList c.body = false

/-- Prefix-order on compiler states: the pools only grow at their end
(existing indices stay stable), pool keys stay duplicate-free, and no
function-table key disappears. -/
def StateLe (s t : State) : Prop :=
  s.strings <+: t.strings ∧ s.symbols <+: t.symbols ∧
    (s.strings.Nodup → t.strings.Nodup) ∧ (s.symbols.Nodup → t.symbols.Nodup) ∧
    ∀ k, (fnLookup s.functions k).isSome → (fnLookup t.functions k).isSome

section Examples

open Expr

/-- Input of the repository's `alias` test:
`(let ((x 1)) (let ((x x)) (+ x x)))`. -/
def aliasInput : Expr :=
  Let [("x", Number 1)]
    [Let [("x", Identifier "x")]
      [List [Identifier "+", Identifier "x", Identifier "x"]]]

/-- Expected renaming of `aliasInput`:
`(let ((x.0 1)) (let ((x.1 x.0)) (+ x.1 x.1)))`. -/
def aliasOutput : Expr :=
  Let [("x.0", Number 1)]
    [Let [("x.1", Identifier "x.0")]
      [List [Identifier "+", Identifier "x.1", Identifier "x.1"]]]

/-- Input of the repository's `letrec` test:
`(let ((f (lambda (x) (g x x))) (g (lambda (x y) (+ x y)))) (f 12))`. -/
def letrecInput : Expr :=
  Let
    [("f", Lambda none ["x"] [] [List [Identifier "g", Identifier "x", Identifier "x"]]),
     ("g", Lambda none ["x", "y"] [] [List [Identifier "+", Identifier "x", Identifier "y"]])]
    [List [Identifier "f", Number 12]]

/-- Expected renaming of `letrecInput`: `f`, `g` and every internal
reference become `f.0` / `g.0`. -/
def letrecOutput : Expr :=
  Let
    [("f.0", Lambda none ["x"] [] [List [Identifier "g.0", Identifier "x", Identifier "x"]]),
     ("g.0", Lambda none ["x", "y"] [] [List [Identifier "+", Identifier "x", Identifier "y"]])]
    [List [Identifier "f.0", Number 12]]

/-- Input of the repository's `shadow1` test:
`(let ((x 1)) (let ((x 2)) (+ x x)))`. -/
def shadowInput : Expr :=
  Let [("x", Number 1)]
    [Let [("x", Number 2)]
      [List [Identifier "+", Identifier "x", Identifier "x"]]]

/-- Expected renaming of `shadowInput`:
`(let ((x.0 1)) (let ((x.1 2)) (+ x.1 x.1)))`. -/
def shadowOutput : Expr :=
  Let [("x.0", Number 1)]
    [Let [("x.1", Number 2)]
      [List [Identifier "+", Identifier "x.1", Identifier "x.1"]]]

/-- Input of the repository's `shadow2` test: a four-deep chain of
rebindings `(let ((t (cons 1 2))) (let ((t t)) (let ((t t)) (let ((t t)) t))))`. -/
def chainInput : Expr :=
  Let [("t", List [Identifier "cons", Number 1, Number 2])]
    [Let [("t", Identifier "t")]
      [Let [("t", Identifier "t")]
        [Let [("t", Identifier "t")] [Identifier "t"]]]]

/-- Expected renaming of `chainInput`: generations `t.0, t.1, t.2, t.3` in
strict sequence, each binding value referencing the prior generation. -/
def chainOutput : Expr :=
  Let [("t.0", List [Identifier "cons", Number 1, Number 2])]
    [Let [("t.1", Identifier "t.0")]
      [Let [("t.2", Identifier "t.1")]
        [Let [("t.3", Identifier "t.2")] [Identifier "t.3"]]]]

/-- Input of the repository's `lift_simple` test:
`(let ((id (lambda (x) x))) (id 42))`. -/
def liftSimpleInput : Expr :=
  Let [("id", Lambda none ["x"] [] [Identifier "x"])]
    [List [Identifier "id", Number 42]]

/-- A function literal in argument position: `(f (lambda () 1))`. -/
def inlineLambdaInput : Expr :=
  List [Identifier "f", Lambda none [] [] [Number 1]]

/-- `(let ((f (lambda () 1))) ())`: binds `f` to a first function body. -/
def rebindFirst : Expr :=
  Let [("f", Lambda none [] [] [Number 1])] [Nil]

/-- `(let ((f (lambda () 2))) ())`: rebinds `f` to a different body. -/
def rebindSecond : Expr :=
  Let [("f", Lambda none [] [] [Number 2])] [Nil]

end Examples

/-!
## Helper lemmas

General facts about the embedded table/pool operations and a strong
induction (on expression size) establishing the monotonicity and
lambda-freeness invariants of the lifting pass.
-/

theorem fnLookup_cons (p : String × Code) (l : List (String × Code)) (q : String) :
    fnLookup (p :: l) q = if p.1 = q then some p.2 else fnLookup l q := by
  by_cases h : p.1 = q
  · simp [fnLookup, List.find?_cons_of_pos, h]
  · simp [fnLookup, List.find?_cons_of_neg, h]

theorem fnLookup_map_overwrite (l : List (String × Code)) (k : String) (v : Code) (q : String) :
    fnLookup (l.map (fun p => if p.1 = k then (k, v) else p)) q =
      if q = k then (if l.any (fun p => p.1 = k) then some v else none)
      else fnLookup l q := by
  induction l with
  | nil => by_cases hq : q = k <;> simp [fnLookup, hq]
  | cons p l ih =>
    by_cases hp : p.1 = k
    · by_cases hq : q = k
      · subst hq; simp [hp, fnLookup_cons, ih]
      · have hkq : ¬ k = q := fun h => hq h.symm
        have hpq : ¬ p.1 = q := by rw [hp]; exact hkq
        simp [hp, hq, fnLookup_cons, ih, hpq, hkq]
    · by_cases hq : q = k
      · subst hq
        have hA : decide (p.1 = q) = false := by simp [hp]
        rw [List.map_cons, if_neg hp, fnLookup_cons, if_neg hp, ih]
        rw [if_pos rfl, if_pos rfl, List.any_cons, hA, Bool.false_or]
      · by_cases hpq : p.1 = q <;> simp [hp, hq, fnLookup_cons, ih, hpq]

theorem fnLookup_fnInsert (l : List (String × Code)) (k : String) (v : Code) (q : String) :
    fnLookup (fnInsert l k v) q = if q = k then some v else fnLookup l q := by
  unfold fnInsert
  split
  · next h => rw [fnLookup_map_overwrite]; simp [h]
  · next h =>
    have hnone : ∀ p ∈ l, ¬ p.1 = k := by
      intro p hp hpk
      exact h (List.any_eq_true.mpr ⟨p, hp, by simp [hpk]⟩)
    by_cases hq : q = k
    · subst hq
      have hfind : List.find? (fun p => p.1 = q) l = none :=
        List.find?_eq_none.mpr (fun p hp => by simp [hnone p hp])
      simp [fnLookup, List.find?_append, hfind]
    · have hkq : ¬ k = q := fun h => hq h.symm
      cases hl : List.find? (fun p => decide (p.1 = q)) l with
      | none => simp [fnLookup, List.find?_append, hl, hq, hkq]
      | some r => simp [fnLookup, List.find?_append, hl, hq, hkq]

theorem stateLe_refl (s : State) : StateLe s s :=
  ⟨List.prefix_refl _, List.prefix_refl _, id, id, fun _ h => h⟩

theorem stateLe_trans {s t u : State} (h1 : StateLe s t) (h2 : StateLe t u) :
    StateLe s u :=
  ⟨h1.1.trans h2.1, h1.2.1.trans h2.2.1, fun h => h2.2.2.1 (h1.2.2.1 h),
    fun h => h2.2.2.2.1 (h1.2.2.2.1 h),
    fun k h => h2.2.2.2.2 k (h1.2.2.2.2 k h)⟩

theorem internPool_grows (pool : List String) (v : String) :
    pool <+: internPool pool v := by
  unfold internPool
  split
  · exact List.prefix_refl _
  · exact ⟨[v], rfl⟩

theorem internPool_nodup {pool : List String} (v : String) (h : pool.Nodup) :
    (internPool pool v).Nodup := by
  unfold internPool
  split
  · exact h
  · next hv => simp [List.nodup_append, h, hv]

theorem stateLe_internStr (s : State) (r : String) :
    StateLe s { s with strings := internPool s.strings r } :=
  ⟨internPool_grows _ _, List.prefix_refl _, internPool_nodup r, id, fun _ h => h⟩

theorem stateLe_internSym (s : State) (r : String) :
    StateLe s { s with symbols := internPool s.symbols r } :=
  ⟨List.prefix_refl _, internPool_grows _ _, id, internPool_nodup r, fun _ h => h⟩

theorem stateLe_fnInsert (s : State) (k : String) (v : Code) :
    StateLe s { s with functions := fnInsert s.functions k v } := by
  refine ⟨List.prefix_refl _, List.prefix_refl _, id, id, fun q h => ?_⟩
  rw [fnLookup_fnInsert]
  by_cases hq : q = k <;> simp [hq, h]

theorem liftBindings_cons_other (s : State) (name : String) (v : Expr)
    (bs : List (String × Expr)) (hv : isLambda v = false) :
    liftBindings s ((name, v) :: bs) =
      (lift1 s v).bind fun p =>
        (liftBindings p.1 bs).bind fun q => some (q.1, (name, p.2) :: q.2) := by
  cases v <;> simp_all [isLambda, liftBindings, lift1]

theorem fnTableClean_fnInsert {l : List (String × Code)} {k : String} {v : Code}
    (hc : FnTableClean l) (hv : hasLambdaList v.body = false) :
    FnTableClean (fnInsert l k v) := by
  intro q c hq
  rw [fnLookup_fnInsert] at hq
  by_cases h : q = k
  · rw [if_pos h] at hq; cases hq; exact hv
  · rw [if_neg h] at hq; exact hc q c hq

theorem expr_sizeOf_pos (e : Expr) : 0 < sizeOf e := by
  cases e <;> simp_arith

theorem liftFuel (N : Nat) :
    (∀ s e s' e', sizeOf e ≤ N → lift1 s e = some (s', e') →
        StateLe s s' ∧ (FnTableClean s.functions →
          FnTableClean s'.functions ∧ hasLambda e' = false)) ∧
    (∀ s bs s' rest, sizeOf bs ≤ N →
        liftBindings s bs = some (s', rest) →
        StateLe s s' ∧ (FnTableClean s.functions →
          FnTableClean s'.functions ∧ hasLambdaBindings rest = false)) ∧
    (∀ s l s' l', sizeOf l ≤ N → liftList s l = some (s', l') →
        StateLe s s' ∧ (FnTableClean s.functions →
          FnTableClean s'.functions ∧ hasLambdaList l' = false)) := by
  induction N with
  | zero =>
    refine ⟨fun s e s' e' hsz _ => absurd hsz ?_, fun s bs s' rest hsz _ => absurd hsz ?_,
      fun s l s' l' hsz _ => absurd hsz ?_⟩
    · have := expr_sizeOf_pos e; omega
    · cases bs <;> simp_arith
    · cases l <;> simp_arith
  | succ N ih =>
    obtain ⟨ih1, ih2, ih3⟩ := ih
    refine ⟨?_, ?_, ?_⟩
    · -- lift1
      intro s e s' e' hsz h
      cases e with
      | Str r =>
        simp [lift1] at h
        obtain ⟨rfl, rfl⟩ := h
        exact ⟨stateLe_internStr s r, fun hc => ⟨hc, rfl⟩⟩
      | Symbol r =>
        simp [lift1] at h
        obtain ⟨rfl, rfl⟩ := h
        exact ⟨stateLe_internSym s r, fun hc => ⟨hc, rfl⟩⟩
      | Let bindings body =>
        simp only [Expr.Let.sizeOf_spec] at hsz
        rw [lift1] at h
        cases hb : liftBindings s bindings with
        | none => rw [hb] at h; cases h
        | some r1 =>
          obtain ⟨s1, rest⟩ := r1
          rw [hb] at h
          simp at h
          cases hl : liftList s1 body with
          | none => rw [hl] at h; cases h
          | some r2 =>
            obtain ⟨s2, body'⟩ := r2
            rw [hl] at h
            simp at h
            obtain ⟨rfl, rfl⟩ := h
            have H2 := ih2 s bindings s1 rest (by omega) hb
            have H3 := ih3 s1 body s2 body' (by omega) hl
            refine ⟨stateLe_trans H2.1 H3.1, fun hc => ?_⟩
            have h2 := H2.2 hc
            have h3 := H3.2 h2.1
            exact ⟨h3.1, by simp [hasLambda, h2.2, h3.2]⟩
      | List l =>
        simp only [Expr.List.sizeOf_spec] at hsz
        rw [lift1] at h
        cases hl : liftList s l with
        | none => rw [hl] at h; cases h
        | some r1 =>
          obtain ⟨s1, l'⟩ := r1
          rw [hl] at h
          simp at h
          obtain ⟨rfl, rfl⟩ := h
          have H := ih3 s l s1 l' (by omega) hl
          refine ⟨H.1, fun hc => ?_⟩
          have h3 := H.2 hc
          exact ⟨h3.1, by simp [hasLambda, h3.2]⟩
      | Cond p t a =>
        simp only [Expr.Cond.sizeOf_spec] at hsz
        rw [lift1] at h
        cases hp : lift1 s p with
        | none => rw [hp] at h; cases h
        | some r1 =>
          obtain ⟨s1, p'⟩ := r1
          rw [hp] at h
          simp at h
          cases ht : lift1 s1 t with
          | none => rw [ht] at h; cases h
          | some r2 =>
            obtain ⟨s2, t'⟩ := r2
            rw [ht] at h
            simp at h
            have H1 := ih1 s p s1 p' (by omega) hp
            have H2 := ih1 s1 t s2 t' (by omega) ht
            cases a with
            | none =>
              simp only [Option.some_inj, Prod.mk.injEq] at h
              obtain ⟨rfl, rfl⟩ := h
              refine ⟨stateLe_trans H1.1 H2.1, fun hc => ?_⟩
              have h1 := H1.2 hc
              have h2 := H2.2 h1.1
              exact ⟨h2.1, by simp [hasLambda, hasLambdaOpt, h1.2, h2.2]⟩
            | some ea =>
              have hsza : sizeOf ea ≤ N := by
                have : sizeOf (some ea) = 1 + sizeOf ea := by simp
                omega
              simp at h
              cases ha : lift1 s2 ea with
              | none => rw [ha] at h; cases h
              | some r3 =>
                obtain ⟨s3, a'⟩ := r3
                rw [ha] at h
                simp at h
                obtain ⟨rfl, rfl⟩ := h
                have H3 := ih1 s2 ea s3 a' hsza ha
                refine ⟨stateLe_trans H1.1 (stateLe_trans H2.1 H3.1), fun hc => ?_⟩
                have h1 := H1.2 hc
                have h2 := H2.2 h1.1
                have h3 := H3.2 h2.1
                exact ⟨h3.1, by simp [hasLambda, hasLambdaOpt, h1.2, h2.2, h3.2]⟩
      | Lambda nm formals free body => rw [lift1] at h; cases h
      | Number n =>
        simp [lift1] at h
        obtain ⟨rfl, rfl⟩ := h
        exact ⟨stateLe_refl s, fun hc => ⟨hc, rfl⟩⟩
      | Boolean b =>
        simp [lift1] at h
        obtain ⟨rfl, rfl⟩ := h
        exact ⟨stateLe_refl s, fun hc => ⟨hc, rfl⟩⟩
      | Nil =>
        simp [lift1] at h
        obtain ⟨rfl, rfl⟩ := h
        exact ⟨stateLe_refl s, fun hc => ⟨hc, rfl⟩⟩
      | Identifier i =>
        simp [lift1] at h
        obtain ⟨rfl, rfl⟩ := h
        exact ⟨stateLe_refl s, fun hc => ⟨hc, rfl⟩⟩
    · -- liftBindings
      intro s bs s' rest hsz h
      cases bs with
      | nil =>
        simp [liftBindings] at h
        obtain ⟨rfl, rfl⟩ := h
        exact ⟨stateLe_refl s, fun hc => ⟨hc, rfl⟩⟩
      | cons b bs =>
        obtain ⟨name, v⟩ := b
        simp only [List.cons.sizeOf_spec, Prod.mk.sizeOf_spec] at hsz
        by_cases hv : isLambda v = true
        · obtain ⟨nm, formals, free, body, rfl⟩ :
              ∃ nm formals free body, v = Expr.Lambda nm formals free body := by
            cases v <;> first
              | (exact ⟨_, _, _, _, rfl⟩)
              | (simp [isLambda] at hv)
          simp only [Expr.Lambda.sizeOf_spec] at hsz
          rw [liftBindings] at h
          cases hl : liftList s body with
          | none => rw [hl] at h; cases h
          | some r1 =>
            obtain ⟨s1, body'⟩ := r1
            rw [hl] at h
            simp at h
            have H1 := ih3 s body s1 body' (by omega) hl
            have H2 := ih2 _ bs s' rest (by omega) h
            refine ⟨stateLe_trans H1.1
              (stateLe_trans (stateLe_fnInsert s1 name ⟨some name, formals, free, body'⟩) H2.1),
              fun hc => ?_⟩
            have h1 := H1.2 hc
            have h2 := H2.2 (fnTableClean_fnInsert h1.1 h1.2)
            exact h2
        · have hv' : isLambda v = false := by simpa using hv
          rw [liftBindings_cons_other s name v bs hv'] at h
          cases hv1 : lift1 s v with
          | none => rw [hv1] at h; cases h
          | some r1 =>
            obtain ⟨s1, v'⟩ := r1
            rw [hv1] at h
            simp at h
            cases hb : liftBindings s1 bs with
            | none => rw [hb] at h; cases h
            | some r2 =>
              obtain ⟨s2, rest'⟩ := r2
              rw [hb] at h
              simp at h
              obtain ⟨rfl, rfl⟩ := h
              have H1 := ih1 s v s1 v' (by omega) hv1
              have H2 := ih2 s1 bs s2 rest' (by omega) hb
              refine ⟨stateLe_trans H1.1 H2.1, fun hc => ?_⟩
              have h1 := H1.2 hc
              have h2 := H2.2 h1.1
              exact ⟨h2.1, by simp [hasLambdaBindings, h1.2, h2.2]⟩
    · -- liftList
      intro s l s' l' hsz h
      cases l with
      | nil =>
        simp [liftList] at h
        obtain ⟨rfl, rfl⟩ := h
        exact ⟨stateLe_refl s, fun hc => ⟨hc, rfl⟩⟩
      | cons e es =>
        simp only [List.cons.sizeOf_spec] at hsz
        rw [liftList] at h
        cases he : lift1 s e with
        | none => rw [he] at h; cases h
        | some r1 =>
          obtain ⟨s1, e'⟩ := r1
          rw [he] at h
          simp at h
          cases hes : liftList s1 es with
          | none => rw [hes] at h; cases h
          | some r2 =>
            obtain ⟨s2, es'⟩ := r2
            rw [hes] at h
            simp at h
            obtain ⟨rfl, rfl⟩ := h
            have H1 := ih1 s e s1 e' (by omega) he
            have H2 := ih3 s1 es s2 es' (by omega) hes
            refine ⟨stateLe_trans H1.1 H2.1, fun hc => ?_⟩
            have h1 := H1.2 hc
            have h2 := H2.2 h1.1
            exact ⟨h2.1, by simp [hasLambdaList, h1.2, h2.2]⟩

theorem liftList_le (s : State) (l : List Expr) (s' : State) (l' : List Expr)
    (h : liftList s l = some (s', l')) : StateLe s s' :=
  ((liftFuel (sizeOf l)).2.2 s l s' l' le_rfl h).1

theorem liftList_clean (s : State) (l : List Expr) (s' : State) (l' : List Expr)
    (h : liftList s l = some (s', l')) (hc : FnTableClean s.functions) :
    FnTableClean s'.functions ∧ hasLambdaList l' = false :=
  ((liftFuel (sizeOf l)).2.2 s l s' l' le_rfl h).2 hc

end Inc

namespace Inc

theorem mangleList_eq_map (env : Env) (l : List Expr) :
    mangleList env l = l.map (mangle env) := by
  induction l with
  | nil => rfl
  | cons e es ih => simp [mangleList, ih]

theorem mangleOpt_eq_map (env : Env) (a : Option Expr) :
    mangleOpt env a = a.map (mangle env) := by
  cases a <;> rfl

theorem mangleBindings_getElem (env all : Env) (names : List String) :
    ∀ (bs : List (String × Expr)) (i : Nat) (name : String) (value : Expr),
      bs[i]? = some (name, value) →
      (mangleBindings env all names bs)[i]? =
        some (name ++ "." ++ toString (genOf all name),
          if isLetOrLambda value then mangle all value
          else mangle (bumpAll env (names.filter (fun n => n ≠ name))) value) := by
  intro bs
  induction bs with
  | nil => intro i name value h; simp at h
  | cons b bs ih =>
    intro i name value h
    obtain ⟨bn, bv⟩ := b
    cases i with
    | zero =>
      simp at h
      obtain ⟨rfl, rfl⟩ := h
      simp [mangleBindings]
    | succ i =>
      simp at h
      simp [mangleBindings]
      simpa using ih i name value h

theorem bump_self (env : Env) (n : String) : ((bump env n) n).isSome := by
  unfold bump
  rw [if_pos rfl]
  cases env n <;> simp

theorem bumpAll_isSome (env : Env) (names : List String) (x : String)
    (h : ((env x).isSome) ) : ((bumpAll env names) x).isSome := by
  induction names generalizing env with
  | nil => exact h
  | cons n ns ih =>
    have hb : ((bump env n) x).isSome := by
      unfold bump
      by_cases hx : x = n
      · rw [if_pos hx]; cases env n <;> simp
      · rw [if_neg hx]; exact h
    exact ih (bump env n) hb

theorem bumpAll_mem_isSome (env : Env) (names : List String) (name : String)
    (h : name ∈ names) : ((bumpAll env names) name).isSome := by
  induction names generalizing env with
  | nil => cases h
  | cons n ns ih =>
    rcases List.mem_cons.mp h with rfl | hmem
    · exact bumpAll_isSome (bump env name) ns name (bump_self env name)
    · exact ih (bump env n) hmem

end Inc

namespace Inc

/-- C1: a `let` binding whose value is neither a binding-form nor a function
literal has its value renamed under the sibling-only environment — the
incoming environment with every other binding name of the same `let` bumped
to its new generation, the binding's own name left at its old generation —
and for `(let ((x 1)) (let ((x x)) (+ x x)))` the inner binding's value
renames to `x.0` while both body occurrences rename to `x.1`. -/
theorem C1_plain_value_sibling_env :
    (∀ (env : Env) (bindings : List (String × Expr)) (body : List Expr)
        (i : Nat) (name : String) (value : Expr),
        bindings[i]? = some (name, value) →
        isLetOrLambda value = false →
        (bindingsOf (mangle env (.Let bindings body)))[i]? =
          some (name ++ "." ++ toString (genOf (bumpAll env (bindings.map Prod.fst)) name),
            mangle (bumpAll env ((bindings.map Prod.fst).filter (fun n => n ≠ name))) value)) ∧
    mangle Env.empty aliasInput = aliasOutput := by
  constructor
  · intro env bindings body i name value h hval
    have hg := mangleBindings_getElem env (bumpAll env (bindings.map Prod.fst))
      (bindings.map Prod.fst) bindings i name value h
    rw [hval] at hg
    simp only [mangle, bindingsOf]
    simpa using hg
  · rfl

theorem C1_witness :
    (bindingsOf (mangle Env.empty (Expr.Let [("x", Expr.Number 1)] [])))[0]? =
      some ("x.0", Expr.Number 1) :=
  C1_plain_value_sibling_env.1 Env.empty [("x", Expr.Number 1)] [] 0 "x"
    (Expr.Number 1) rfl rfl

/-- C2: a `let` binding whose value is a binding-form or function literal
has its value renamed under the extended environment, in which every binding
name of the same `let` is already bumped to its new generation (absent → 0,
present → previous + 1, in listed order), so self- and sibling references
resolve to the new generation; in particular the mutual-recursion example
renames `f`, `g` and all internal references to `f.0` / `g.0`. -/
theorem C2_letrec_extended_env :
    (∀ (env : Env) (bindings : List (String × Expr)) (body : List Expr)
        (i : Nat) (name : String) (value : Expr),
        bindings[i]? = some (name, value) →
        isLetOrLambda value = true →
        (bindingsOf (mangle env (.Let bindings body)))[i]? =
          some (name ++ "." ++ toString (genOf (bumpAll env (bindings.map Prod.fst)) name),
            mangle (bumpAll env (bindings.map Prod.fst)) value)) ∧
    mangle Env.empty letrecInput = letrecOutput := by
  constructor
  · intro env bindings body i name value h hval
    have hg := mangleBindings_getElem env (bumpAll env (bindings.map Prod.fst))
      (bindings.map Prod.fst) bindings i name value h
    rw [hval] at hg
    simp only [mangle, bindingsOf]
    simpa using hg
  · rfl

theorem C2_witness :
    (bindingsOf (mangle Env.empty
        (Expr.Let [("f", Expr.Lambda none [] [] [Expr.Identifier "f"])] [])))[0]? =
      some ("f.0", Expr.Lambda none [] [] [Expr.Identifier "f.0"]) :=
  C2_letrec_extended_env.1 Env.empty
    [("f", Expr.Lambda none [] [] [Expr.Identifier "f"])] [] 0 "f"
    (Expr.Lambda none [] [] [Expr.Identifier "f"]) rfl rfl

/-- C6: the renaming pass is total.  The only partial operation in `mangle`
is `all.get(name).unwrap()` in the `Let` arm, where `name` is a binding name
of the `let` and `all` is the incoming environment with every binding name
bumped; this lookup always succeeds, because every binding name is inserted
into the extended environment before any binding is renamed. -/
theorem C6_rename_total :
    ∀ (env : Env) (names : List String) (name : String), name ∈ names →
      ∃ g : Int, bumpAll env names name = some g := by
  intro env names name h
  have := bumpAll_mem_isSome env names name h
  exact Option.isSome_iff_exists.mp this

theorem C6_witness : ∃ g : Int, bumpAll Env.empty ["x"] "x" = some g :=
  C6_rename_total Env.empty ["x"] "x" (by simp)

/-- C8: `mangle` leaves a function literal's name, formal-parameter list and
free-variable list unchanged, renaming only its body under the same incoming
environment; lists and conditionals likewise propagate the same incoming
environment unchanged to all their sub-expressions. -/
theorem C8_frame :
    (∀ (env : Env) (name : Option String) (formals free : List String) (body : List Expr),
        mangle env (.Lambda name formals free body) =
          .Lambda name formals free (body.map (mangle env))) ∧
    (∀ (env : Env) (l : List Expr),
        mangle env (.List l) = .List (l.map (mangle env))) ∧
    (∀ (env : Env) (p t : Expr) (a : Option Expr),
        mangle env (.Cond p t a) =
          .Cond (mangle env p) (mangle env t) (a.map (mangle env))) := by
  refine ⟨fun env name formals free body => ?_, fun env l => ?_, fun env p t a => ?_⟩
  · simp [mangle, mangleList_eq_map]
  · simp [mangle, mangleList_eq_map]
  · simp [mangle, mangleOpt_eq_map]

/-- C9: shadowing — `(let ((x 1)) (let ((x 2)) (+ x x)))` renames to
`(let ((x.0 1)) (let ((x.1 2)) (+ x.1 x.1)))`; a four-deep chain of
rebindings of `t` produces generations `t.0, t.1, t.2, t.3` in strict
sequence with each binding value referencing the prior generation; and
rebinding a name in scope always bumps its generation to a strictly higher
value (`g` to `g + 1`). -/
theorem C9_shadowing :
    mangle Env.empty shadowInput = shadowOutput ∧
    mangle Env.empty chainInput = chainOutput ∧
    (∀ (env : Env) (name : String) (g : Int),
        env name = some g → bump env name name = some (g + 1)) := by
  refine ⟨rfl, rfl, fun env name g h => ?_⟩
  unfold bump
  rw [if_pos rfl, h]

theorem C9_witness :
    bump (fun x => if x = "x" then some 0 else none) "x" "x" = some 1 :=
  C9_shadowing.2.2 (fun x => if x = "x" then some 0 else none) "x" 0 (by simp)

end Inc

namespace Inc

theorem liftBindings_cons_lambda (s : State) (name : String) (nm : Option String)
    (formals free : List String) (body : List Expr) (bs : List (String × Expr)) :
    liftBindings s ((name, .Lambda nm formals free body) :: bs) =
      (liftList s body).bind fun p =>
        liftBindings
          { p.1 with functions := fnInsert p.1.functions name ⟨some name, formals, free, p.2⟩ }
          bs := by
  simp [liftBindings]

/-- C3: on a `let`, the lifting pass processes the bindings then the body
against the threaded state; a lambda-valued binding is extracted with no
trace — a record carrying the binding's name, the literal's formals and
free list unchanged, and its recursively lifted body is inserted into the
function table keyed by the binding's name; any other binding is retained
in original relative order with its value recursively lifted; and the
repository's simple example lifts `(let ((id (lambda (x) x))) (id 42))` to
`(let () (id 42))` with `id` registered. -/
theorem C3_let_extraction :
    (∀ (s : State) (bindings : List (String × Expr)) (body : List Expr),
        lift1 s (.Let bindings body) =
          (liftBindings s bindings).bind fun p =>
            (liftList p.1 body).bind fun q => some (q.1, .Let p.2 q.2)) ∧
    (∀ (s : State) (name : String) (nm : Option String) (formals free : List String)
        (body : List Expr) (bs : List (String × Expr)),
        liftBindings s ((name, .Lambda nm formals free body) :: bs) =
          (liftList s body).bind fun p =>
            liftBindings
              { p.1 with
                functions := fnInsert p.1.functions name ⟨some name, formals, free, p.2⟩ }
              bs) ∧
    (∀ (s : State) (name : String) (v : Expr) (bs : List (String × Expr)),
        isLambda v = false →
        liftBindings s ((name, v) :: bs) =
          (lift1 s v).bind fun p =>
            (liftBindings p.1 bs).bind fun q => some (q.1, (name, p.2) :: q.2)) ∧
    (∀ (s : State) (bs : List (String × Expr)) (s' : State) (rest : List (String × Expr)),
        liftBindings s bs = some (s', rest) →
        rest.map Prod.fst = (bs.filter (fun b => !isLambda b.2)).map Prod.fst) ∧
    lift State.empty [liftSimpleInput] =
      some (⟨[("id", ⟨some "id", ["x"], [], [Expr.Identifier "x"]⟩)], [], []⟩,
        [Expr.Let [] [Expr.List [Expr.Identifier "id", Expr.Number 42]]]) := by
  refine ⟨?_, liftBindings_cons_lambda, liftBindings_cons_other, ?_, rfl⟩
  · intro s bindings body
    rw [lift1]
    cases hb : liftBindings s bindings with
    | none => rfl
    | some p =>
      obtain ⟨s1, rest⟩ := p
      cases hl : liftList s1 body with
      | none => simp [hl]
      | some q =>
        obtain ⟨s2, body'⟩ := q
        simp [hl]
  · intro s bs
    induction bs generalizing s with
    | nil =>
      intro s' rest h
      simp [liftBindings] at h
      obtain ⟨rfl, rfl⟩ := h
      rfl
    | cons b bs ih =>
      intro s' rest h
      obtain ⟨name, v⟩ := b
      by_cases hv : isLambda v = true
      · obtain ⟨nm, formals, free, body, rfl⟩ :
            ∃ nm formals free body, v = Expr.Lambda nm formals free body := by
          cases v <;> first
            | (exact ⟨_, _, _, _, rfl⟩)
            | (simp [isLambda] at hv)
        rw [liftBindings_cons_lambda] at h
        cases hl : liftList s body with
        | none => rw [hl] at h; cases h
        | some p =>
          obtain ⟨s1, body'⟩ := p
          rw [hl] at h
          simp at h
          have := ih _ s' rest h
          simp [List.filter, isLambda, this]
      · have hv' : isLambda v = false := by simpa using hv
        rw [liftBindings_cons_other s name v bs hv'] at h
        cases hv1 : lift1 s v with
        | none => rw [hv1] at h; cases h
        | some p =>
          obtain ⟨s1, v'⟩ := p
          rw [hv1] at h
          simp at h
          cases hb : liftBindings s1 bs with
          | none => rw [hb] at h; cases h
          | some q =>
            obtain ⟨s2, rest'⟩ := q
            rw [hb] at h
            simp at h
            obtain ⟨rfl, rfl⟩ := h
            have := ih s1 s2 rest' hb
            simp [List.filter, hv', this]

theorem C3_witness :
    ([("a", Expr.Number 1)] : List (String × Expr)).map Prod.fst =
      (([("f", Expr.Lambda none [] [] []), ("a", Expr.Number 1)]
          : List (String × Expr)).filter (fun b => !isLambda b.2)).map Prod.fst :=
  C3_let_extraction.2.2.2.1 State.empty
    [("f", Expr.Lambda none [] [] []), ("a", Expr.Number 1)]
    ⟨[("f", ⟨some "f", [], [], []⟩)], [], []⟩ [("a", Expr.Number 1)] rfl

/-- C4: a function literal anywhere other than as the direct value of a
`let` binding makes the lifting pass fail fatally (`unimplemented!`,
modelled as `none`) — both when `lift1` reaches the literal itself and for
a literal in argument position — rather than returning a rewritten
expression. -/
theorem C4_inline_lambda_fails :
    (∀ (s : State) (nm : Option String) (formals free : List String) (body : List Expr),
        lift1 s (.Lambda nm formals free body) = none) ∧
    lift1 State.empty inlineLambdaInput = none :=
  ⟨fun _ _ _ _ _ => rfl, rfl⟩

/-- C5: literal-pool invariants — interning a value already present leaves
the pool unchanged and interning an absent value appends it at index equal
to the pool's current size, so a run started from duplicate-free pools keeps
them duplicate-free (each distinct value owns exactly one index) and only
extends them at the end (the dense `0..N-1` first-seen numbering is stable);
`Str` touches only the string pool and `Symbol` only the symbol pool, each
returning the literal unchanged. -/
theorem C5_pool_invariants :
    (∀ (pool : List String) (v : String), v ∈ pool → internPool pool v = pool) ∧
    (∀ (pool : List String) (v : String), v ∉ pool → internPool pool v = pool ++ [v]) ∧
    (∀ (s : State) (v : String),
        lift1 s (.Str v) = some ({ s with strings := internPool s.strings v }, .Str v)) ∧
    (∀ (s : State) (v : String),
        lift1 s (.Symbol v) = some ({ s with symbols := internPool s.symbols v }, .Symbol v)) ∧
    (∀ (s : State) (prog : List Expr) (s' : State) (out : List Expr),
        lift s prog = some (s', out) →
        (s.strings.Nodup → s'.strings.Nodup) ∧ (s.symbols.Nodup → s'.symbols.Nodup) ∧
          s.strings <+: s'.strings ∧ s.symbols <+: s'.symbols) := by
  refine ⟨fun pool v h => by simp [internPool, h],
    fun pool v h => by simp [internPool, h],
    fun s v => rfl, fun s v => rfl, fun s prog s' out h => ?_⟩
  have hle := liftList_le s prog s' out h
  exact ⟨hle.2.2.1, hle.2.2.2.1, hle.1, hle.2.1⟩

theorem C5_witness : internPool ["a"] "a" = ["a"] :=
  C5_pool_invariants.1 ["a"] "a" (by simp)

/-- C7 counterexample: the claim that a function-table key, once bound,
maps to the same record in every later state is false — lifting
`(let ((f (lambda () 1))) ())` binds `f` to a record with body `(1)`, and
subsequently lifting `(let ((f (lambda () 2))) ())` in the same compilation
reassigns `f` to a different record with body `(2)`. -/
theorem C7_counterexample :
    (do
        let r1 ← lift State.empty [rebindFirst]
        fnLookup r1.1.functions "f") = some ⟨some "f", [], [], [Expr.Number 1]⟩ ∧
    (do
        let r2 ← lift State.empty [rebindFirst, rebindSecond]
        fnLookup r2.1.functions "f") = some ⟨some "f", [], [], [Expr.Number 2]⟩ ∧
    (⟨some "f", [], [], [Expr.Number 1]⟩ : Code) ≠ ⟨some "f", [], [], [Expr.Number 2]⟩ := by
  refine ⟨rfl, rfl, ?_⟩
  intro h
  simp [Code.mk.injEq] at h

/-- C7 amended: once a name has been inserted into the function table it is
never removed — after any run of the lifting pass every previously present
key still maps to some record — but it is not always the same record, since
a later `let` binding of the same name to a function literal overwrites it
(`HashMap::insert`, last write wins). -/
theorem C7_amended_no_removal :
    ∀ (s : State) (prog : List Expr) (s' : State) (out : List Expr),
      lift s prog = some (s', out) →
      ∀ k, (fnLookup s.functions k).isSome → (fnLookup s'.functions k).isSome := by
  intro s prog s' out h k hk
  exact (liftList_le s prog s' out h).2.2.2.2 k hk

theorem C7_witness :
    (fnLookup [("g", (⟨some "g", [], [], []⟩ : Code))] "g").isSome = true :=
  C7_amended_no_removal ⟨[("g", ⟨some "g", [], [], []⟩)], [], []⟩ [Expr.Nil]
    ⟨[("g", ⟨some "g", [], [], []⟩)], [], []⟩ [Expr.Nil] rfl "g" rfl

/-- C10: whenever the lifting pass completes without failing, no function
literal remains: if every record already in the function table has a
lambda-free body, then the returned residual expressions are lambda-free
and every record in the final function table has a lambda-free body. -/
theorem C10_no_lambda_remains :
    ∀ (s : State) (prog : List Expr) (s' : State) (out : List Expr),
      lift s prog = some (s', out) →
      FnTableClean s.functions →
      hasLambdaList out = false ∧ FnTableClean s'.functions := by
  intro s prog s' out h hc
  have hcl := liftList_clean s prog s' out h hc
  exact ⟨hcl.2, hcl.1⟩

theorem C10_witness :
    hasLambdaList [Expr.Let [] [Expr.Number 7]] = false ∧
      FnTableClean [("h", ⟨some "h", [], [], [Expr.Number 5]⟩)] :=
  C10_no_lambda_remains State.empty
    [Expr.Let [("h", Expr.Lambda none [] [] [Expr.Number 5])] [Expr.Number 7]]
    ⟨[("h", ⟨some "h", [], [], [Expr.Number 5]⟩)], [], []⟩ [Expr.Let [] [Expr.Number 7]]
    rfl (fun k c h => by simp [fnLookup, State.empty] at h)

end Inc
